import Mathlib

/-!
Verification of the py-tsbs-benchmark core: row generation, batching,
round-robin worker assignment, split validation, and the bounded
row-count polling loop.

The generation/partitioning module (`bench_pandas`) is known only through
its tests and the specification, so its definitions below are modelled
from the spec.  The polling loop (`block_until_rowcount`) is translated
from `py_tsbs_benchmark/common.py`.
-/

namespace PyTsbs

/-- Error kinds of the core, per the spec's error-handling design. -/
inductive BenchError where
  | invalidArgument (msg : String) : BenchError
  | splitMismatch (msg : String) : BenchError
  deriving DecidableEq

/-- Decimal rendering of a natural number, digit by digit
(most significant first), used for hostname labels. -/
def natStr (n : Nat) : String :=
  if n = 0 then "0" else String.mk (((Nat.digits 10 n).map Nat.digitChar).reverse)

/-- Modelled from the spec: hostname labels are of the form `host_<i>`. -/
def hostName (i : Nat) : String := "host_" ++ natStr i

/-- Modelled from the spec: saturating addition bounding the sum into
`[0, 100]` — the repository's `_clip_add` (absent from src; known from
its tests).  Numeric columns are rationals here in place of floats. -/
def clip_add (a b : ℚ) : ℚ := max 0 (min 100 (a + b))

/-- Modelled from the spec: one generated row of the fixed cpu schema —
10 categorical fields, 10 numeric fields, one timestamp. -/
structure Row where
  hostname : String
  region : String
  datacenter : String
  rack : String
  os : String
  arch : String
  team : String
  service : String
  service_version : String
  service_environment : String
  usage_user : ℚ
  usage_system : ℚ
  usage_idle : ℚ
  usage_nice : ℚ
  usage_iowait : ℚ
  usage_irq : ℚ
  usage_softirq : ℚ
  usage_steal : ℚ
  usage_guest : ℚ
  usage_guest_nice : ℚ
  timestamp : Int
  deriving DecidableEq

/-- The 10 numeric (usage) fields of a row, in schema order. -/
def numFields (r : Row) : List ℚ :=
  [r.usage_user, r.usage_system, r.usage_idle, r.usage_nice, r.usage_iowait,
   r.usage_irq, r.usage_softirq, r.usage_steal, r.usage_guest, r.usage_guest_nice]

/-- The 10 categorical fields of a row, in schema order. -/
def catFields (r : Row) : List String :=
  [r.hostname, r.region, r.datacenter, r.rack, r.os, r.arch, r.team,
   r.service, r.service_version, r.service_environment]

/-- Modelled from the spec: a counter-based seeded pseudo-random stream;
draw `k` of the stream selected by `seed`.  The spec leaves the RNG
algorithm open (same-seed reproducibility only), so a simple fixed
mixing function stands in for numpy's generator. -/
def mix (seed k : Nat) : Nat :=
  (seed * 2654435761 + k * 2246822519 + 3266489917) % 4294967296

/-- Fixed categorical pools for the non-hostname categorical fields
(exact membership is a configuration detail per the spec). -/
def regionPool : List String :=
  ["us-east-1", "us-west-1", "eu-west-1", "ap-southeast-2"]

def datacenterPool : List String := ["dc-1", "dc-2", "dc-3"]

def rackPool : List String := ["rack-1", "rack-2", "rack-3", "rack-4"]

def osPool : List String := ["Ubuntu16.04LTS", "Ubuntu15.10", "Ubuntu16.10"]

def archPool : List String := ["x64", "x86"]

def teamPool : List String := ["SF", "NYC", "LON", "CHI"]

def servicePool : List String := ["service-0", "service-1", "service-2"]

def serviceVersionPool : List String := ["0", "1"]

def serviceEnvironmentPool : List String := ["production", "staging", "test"]

/-- Draw one element of a fixed pool using draw index `idx` of the
seeded stream. -/
def pickFrom (pool : List String) (seed idx : Nat) : String :=
  pool.getD (mix seed idx % pool.length) ""

/-- Modelled from the spec: numeric column `j`, row `i` — a base draw
combined with a delta draw through `clip_add`, so every produced value
is saturated into `[0, 100]`.  Draw indices come after the 9 drawn
categorical columns, one column at a time, in fixed column order. -/
def numVal (seed rc j i : Nat) : ℚ :=
  let base : ℚ := ((mix seed (9 * rc + 2 * (j * rc + i)) % 101 : Nat) : ℚ)
  let delta : ℚ := ((mix seed (9 * rc + 2 * (j * rc + i) + 1) % 101 : Nat) : ℚ) - 50
  clip_add base delta

/-- Modelled from the spec: row `i` of the generated RowSet.  The
hostname is `host_<i mod scale>`; the other categorical fields are
drawn from fixed pools (categorical draws first, then numeric columns,
then timestamps); the timestamp is the strictly increasing row index. -/
def genRow (seed rc scale i : Nat) : Row :=
  { hostname := hostName (i % scale)
    region := pickFrom regionPool seed (0 * rc + i)
    datacenter := pickFrom datacenterPool seed (1 * rc + i)
    rack := pickFrom rackPool seed (2 * rc + i)
    os := pickFrom osPool seed (3 * rc + i)
    arch := pickFrom archPool seed (4 * rc + i)
    team := pickFrom teamPool seed (5 * rc + i)
    service := pickFrom servicePool seed (6 * rc + i)
    service_version := pickFrom serviceVersionPool seed (7 * rc + i)
    service_environment := pickFrom serviceEnvironmentPool seed (8 * rc + i)
    usage_user := numVal seed rc 0 i
    usage_system := numVal seed rc 1 i
    usage_idle := numVal seed rc 2 i
    usage_nice := numVal seed rc 3 i
    usage_iowait := numVal seed rc 4 i
    usage_irq := numVal seed rc 5 i
    usage_softirq := numVal seed rc 6 i
    usage_steal := numVal seed rc 7 i
    usage_guest := numVal seed rc 8 i
    usage_guest_nice := numVal seed rc 9 i
    timestamp := (i : Int) }

/-- The pure generation core: `rc` rows in generation order. -/
def genRows (seed rc scale : Nat) : List Row :=
  (List.range rc).map (genRow seed rc scale)

/-- Modelled from the spec: `gen_dataframe(seed, row_count, scale)` of
the absent `bench_pandas` module — rejects non-positive `row_count` or
`scale` with `InvalidArgument`, otherwise deterministically produces
the RowSet. -/
def gen_dataframe (seed : Nat) (row_count scale : Int) : Except BenchError (List Row) :=
  if row_count ≤ 0 then
    Except.error (BenchError.invalidArgument "row_count must be a positive integer")
  else if scale ≤ 0 then
    Except.error (BenchError.invalidArgument "scale must be a positive integer")
  else
    Except.ok (genRows seed row_count.toNat scale.toNat)

/-- Contiguous chunks of `sz` elements (final chunk short); the
recursion takes one element plus the next `sz - 1` per step. -/
def chunkList : List α → Nat → List (List α)
  | [], _ => []
  | a :: l, sz => (a :: l.take (sz - 1)) :: chunkList (l.drop (sz - 1)) sz
termination_by l _ => l.length
decreasing_by simp only [List.length_cons, List.length_drop]; omega

/-- Modelled from the spec: `chunk_up_dataframe(df, chunk_size)` —
rejects a non-positive `chunk_size` with `InvalidArgument`, otherwise
splits into contiguous chunks of `chunk_size` rows with a short final
chunk holding the remainder. -/
def chunk_up_dataframe (dfs : List α) (chunk_size : Int) : Except BenchError (List (List α)) :=
  if chunk_size ≤ 0 then
    Except.error (BenchError.invalidArgument "chunk_size must be a positive integer")
  else
    Except.ok (chunkList dfs chunk_size.toNat)

/-- Every `w`-th element of a list, starting with its head. -/
def sliceStep : List α → Nat → List α
  | [], _ => []
  | a :: l, w => a :: sliceStep (l.drop (w - 1)) w
termination_by l _ => l.length
decreasing_by simp only [List.length_cons, List.length_drop]; omega

/-- Round-robin assignment: worker `k` (of `w`) receives the chunks at
positions congruent to `k` modulo `w`, in ascending original order. -/
def assignRR (dfs : List α) (w : Nat) : List (List α) :=
  (List.range w).map (fun k => sliceStep (dfs.drop k) w)

/-- Modelled from the spec: `assign_dfs_to_workers(dfs, workers)` —
rejects a non-positive worker count with `InvalidArgument`, otherwise
assigns chunk `i` to worker `i mod workers`; every worker index is
present in the result (position `k` of the outer list is worker `k`). -/
def assign_dfs_to_workers (dfs : List α) (workers : Int) :
    Except BenchError (List (List α)) :=
  if workers ≤ 0 then
    Except.error (BenchError.invalidArgument "workers must be a positive integer")
  else
    Except.ok (assignRR dfs workers.toNat)

/-- Modelled from the spec: `sanity_check_split(df, dfs)` — fails with
`SplitMismatch` unless concatenating the chunks in order reproduces the
RowSet exactly (same length, same row values, same order). -/
def sanity_check_split [DecidableEq α] (df : List α) (dfs : List (List α)) :
    Except BenchError Unit :=
  if dfs.flatten = df then Except.ok ()
  else Except.error (BenchError.splitMismatch "chunks do not reconstitute the rowset")

/-- Timestamp comparison used to re-order pooled rows. -/
def tsLe (a b : Row) : Bool := a.timestamp ≤ b.timestamp

/-- Sort rows by the timestamp field. -/
def sortByTs (rows : List Row) : List Row := rows.mergeSort tsLe

/-- Modelled from the spec: `sanity_check_split2(df, dfs_by_worker)` —
pools every chunk of every worker, sorts the pooled rows by the
timestamp field, and fails with `SplitMismatch` unless the result
matches the timestamp-sorted view of the RowSet. -/
def sanity_check_split2 (df : List Row) (byWorker : List (List (List Row))) :
    Except BenchError Unit :=
  if sortByTs (byWorker.map List.flatten).flatten = sortByTs df then Except.ok ()
  else Except.error (BenchError.splitMismatch "worker chunks do not reconstitute the rowset")

/-- Outcome of the bounded polling loop `block_until_rowcount`:
success, the over-target error, the distinct timeout error, or fuel
exhaustion (the model's stand-in for looping forever). -/
inductive PollOutcome where
  | ok : PollOutcome
  | overTarget (rc target : Int) : PollOutcome
  | timedOut (target : Int) : PollOutcome
  | exhausted : PollOutcome
  deriving DecidableEq

/-- The polling loop of `block_until_rowcount` (common.py): at iteration
`i` it first queries the row count (`counts i`), returns on an exact
match, raises over-target on a strictly larger count, and only then
compares the clock (`times (i + 1)`, the next monotonic reading) against
the deadline. -/
def blockLoop (counts : Nat → Int) (times : Nat → ℚ) (target : Int)
    (tmo t0 : ℚ) : Nat → Nat → PollOutcome
  | _, 0 => PollOutcome.exhausted
  | i, fuel + 1 =>
    let rc := counts i
    if rc = target then PollOutcome.ok
    else if rc > target then PollOutcome.overTarget rc target
    else if times (i + 1) - t0 > tmo then PollOutcome.timedOut target
    else blockLoop counts times target tmo t0 (i + 1) fuel

/-- `block_until_rowcount(target, tmo)` from common.py, over an
environment given by the stream of polled counts and the stream of
monotonic clock readings (`times 0` is the initial reading `t0`). -/
def block_until_rowcount (counts : Nat → Int) (times : Nat → ℚ)
    (target : Int) (tmo : ℚ) (fuel : Nat) : PollOutcome :=
  blockLoop counts times target tmo (times 0) 0 fuel

end PyTsbs

namespace PyTsbs

lemma clip_add_nonneg (a b : ℚ) : 0 ≤ clip_add a b := le_max_left _ _

lemma clip_add_le (a b : ℚ) : clip_add a b ≤ 100 :=
  max_le (by norm_num) (min_le_left _ _)

lemma gen_dataframe_ok (seed : Nat) (row_count scale : Int)
    (h1 : 0 < row_count) (h2 : 0 < scale) :
    gen_dataframe seed row_count scale =
      Except.ok (genRows seed row_count.toNat scale.toNat) := by
  unfold gen_dataframe
  rw [if_neg (by omega), if_neg (by omega)]

/-- C1: for every valid `(seed, row_count, scale)` (positive row count and
scale), two calls of `gen_dataframe` with identical arguments produce
identical RowSets: the same number of rows and, at every index, equal
values in every categorical field, every numeric field, and the
timestamp field. -/
theorem gen_dataframe_deterministic (seed : Nat) (row_count scale : Int)
    (h1 : 0 < row_count) (h2 : 0 < scale) (rows1 rows2 : List Row)
    (e1 : gen_dataframe seed row_count scale = Except.ok rows1)
    (e2 : gen_dataframe seed row_count scale = Except.ok rows2) :
    rows1.length = rows2.length ∧
      ∀ i : Nat, (rows1[i]?.map catFields = rows2[i]?.map catFields) ∧
        (rows1[i]?.map numFields = rows2[i]?.map numFields) ∧
        (rows1[i]?.map Row.timestamp = rows2[i]?.map Row.timestamp) := by
  have h : rows1 = rows2 := Except.ok.inj (e1.symm.trans e2)
  subst h
  exact ⟨rfl, fun i => ⟨rfl, rfl, rfl⟩⟩

/-- Witness for C1 at `(seed, row_count, scale) = (7, 3, 2)`. -/
theorem gen_dataframe_deterministic_witness :
    (genRows 7 3 2).length = (genRows 7 3 2).length :=
  (gen_dataframe_deterministic 7 3 2 (by decide) (by decide)
    (genRows 7 3 2) (genRows 7 3 2)
    (gen_dataframe_ok 7 3 2 (by decide) (by decide))
    (gen_dataframe_ok 7 3 2 (by decide) (by decide))).1

/-- C3: every numeric (usage) field of every generated row lies in
`[0, 100]`, and the internal combination operator `clip_add` saturates
at both bounds, never producing an out-of-range value and being exact
at the boundaries. -/
theorem gen_values_bounded (seed : Nat) (row_count scale : Int)
    (h1 : 0 < row_count) (h2 : 0 < scale) (rows : List Row)
    (hg : gen_dataframe seed row_count scale = Except.ok rows) :
    (∀ r ∈ rows, ∀ v ∈ numFields r, 0 ≤ v ∧ v ≤ 100) ∧
    (∀ a b : ℚ, 0 ≤ clip_add a b ∧ clip_add a b ≤ 100) ∧
    (∀ a b : ℚ, 100 ≤ a + b → clip_add a b = 100) ∧
    (∀ a b : ℚ, a + b ≤ 0 → clip_add a b = 0) ∧
    (∀ a b : ℚ, 0 ≤ a + b → a + b ≤ 100 → clip_add a b = a + b) := by
  have hb : ∀ a b : ℚ, 0 ≤ clip_add a b ∧ clip_add a b ≤ 100 :=
    fun a b => ⟨clip_add_nonneg a b, clip_add_le a b⟩
  refine ⟨?_, hb, ?_, ?_, ?_⟩
  · rw [gen_dataframe_ok seed row_count scale h1 h2] at hg
    have hrows : rows = genRows seed row_count.toNat scale.toNat :=
      (Except.ok.inj hg).symm
    subst hrows
    intro r hr v hv
    obtain ⟨i, _, rfl⟩ := List.mem_map.mp hr
    simp only [numFields, genRow, List.mem_cons, List.not_mem_nil, or_false] at hv
    rcases hv with rfl | rfl | rfl | rfl | rfl | rfl | rfl | rfl | rfl | rfl <;>
      exact hb _ _
  · intro a b h
    unfold clip_add
    rw [min_eq_left h, max_eq_right (by norm_num)]
  · intro a b h
    unfold clip_add
    rw [min_eq_right (le_trans h (by norm_num)), max_eq_left h]
  · intro a b h0 h100
    unfold clip_add
    rw [min_eq_right h100, max_eq_right h0]

/-- Witness for C3: the saturation bound at `clip_add 60 50`. -/
theorem gen_values_bounded_witness :
    0 ≤ clip_add 60 50 ∧ clip_add 60 50 ≤ 100 :=
  (gen_values_bounded 7 1 1 (by decide) (by decide) (genRows 7 1 1)
    (gen_dataframe_ok 7 1 1 (by decide) (by decide))).2.1 60 50

/-- C6: `sanity_check_split` succeeds exactly when concatenating the
chunks in order reproduces the rowset (same length, values, order), and
fails with a `SplitMismatch` error on any other partition. -/
theorem sanity_check_split_spec {α : Type} [DecidableEq α]
    (df : List α) (dfs : List (List α)) :
    (sanity_check_split df dfs = Except.ok () ↔ dfs.flatten = df) ∧
    (dfs.flatten ≠ df →
      sanity_check_split df dfs =
        Except.error (BenchError.splitMismatch
          "chunks do not reconstitute the rowset")) := by
  unfold sanity_check_split
  split_ifs with h <;> simp [h]

/-- Witness for C6: a chunk of rows 0-2 followed by a chunk starting at
row 5 of a 10-row set (skipping rows 3-4) is rejected. -/
theorem sanity_check_split_spec_witness :
    sanity_check_split (List.range 10)
        [(List.range 10).take 3, (List.range 10).drop 5] =
      Except.error (BenchError.splitMismatch
        "chunks do not reconstitute the rowset") :=
  (sanity_check_split_spec (List.range 10)
    [(List.range 10).take 3, (List.range 10).drop 5]).2 (by decide)

/-- C8: each core operation rejects non-positive size parameters with
`InvalidArgument`: `gen_dataframe` fails exactly when `row_count <= 0`
or `scale <= 0`, `chunk_up_dataframe` exactly when `chunk_size <= 0`,
and `assign_dfs_to_workers` exactly when `workers <= 0`. -/
theorem invalid_argument_spec (seed : Nat) (row_count scale chunk_size workers : Int)
    (dfsR : List Row) (dfsC : List (List Row)) :
    ((∃ m, gen_dataframe seed row_count scale =
        Except.error (BenchError.invalidArgument m)) ↔ row_count ≤ 0 ∨ scale ≤ 0) ∧
    ((∃ m, chunk_up_dataframe dfsR chunk_size =
        Except.error (BenchError.invalidArgument m)) ↔ chunk_size ≤ 0) ∧
    ((∃ m, assign_dfs_to_workers dfsC workers =
        Except.error (BenchError.invalidArgument m)) ↔ workers ≤ 0) := by
  refine ⟨?_, ?_, ?_⟩
  · unfold gen_dataframe
    split_ifs with ha hb <;> simp_all
  · unfold chunk_up_dataframe
    split_ifs with ha <;> simp_all
  · unfold assign_dfs_to_workers
    split_ifs with ha <;> simp_all

/-- Witness for C8: `gen_dataframe` with `row_count = 0` reports
`InvalidArgument`. -/
theorem invalid_argument_spec_witness :
    ∃ m, gen_dataframe 1 0 5 = Except.error (BenchError.invalidArgument m) :=
  (invalid_argument_spec 1 0 5 1 1 [] []).1.mpr (Or.inl le_rfl)

/-- C10: in `block_until_rowcount` the row count is queried before the
deadline is ever evaluated, and the over-target check precedes the
timeout check: for any timeout (including one already expired), a first
poll equal to the target returns successfully, and a first poll above
the target raises the over-target error, never the timeout error. -/
theorem first_poll_precedes_deadline_check (counts : Nat → Int) (times : Nat → ℚ)
    (target : Int) (tmo : ℚ) (fuel : Nat) (hf : 0 < fuel) :
    (counts 0 = target →
      block_until_rowcount counts times target tmo fuel = PollOutcome.ok) ∧
    (counts 0 > target →
      block_until_rowcount counts times target tmo fuel =
        PollOutcome.overTarget (counts 0) target) := by
  obtain ⟨f, rfl⟩ : ∃ f, fuel = f + 1 := ⟨fuel - 1, by omega⟩
  constructor
  · intro h
    simp [block_until_rowcount, blockLoop, h]
  · intro h
    have hne : ¬(counts 0 = target) := by omega
    simp [block_until_rowcount, blockLoop, hne, h]

/-- Witness for C10: with an already-expired deadline (negative
timeout), a first poll observing the target still succeeds. -/
theorem first_poll_precedes_deadline_check_witness :
    block_until_rowcount (fun _ => (5 : Int)) (fun _ => (100 : ℚ)) 5 (-1) 1 =
      PollOutcome.ok :=
  (first_poll_precedes_deadline_check (fun _ => (5 : Int)) (fun _ => (100 : ℚ))
    5 (-1) 1 (by decide)).1 rfl

end PyTsbs

namespace PyTsbs

lemma chunkList_nil (sz : Nat) : chunkList ([] : List α) sz = [] := by
  rw [chunkList]

lemma chunkList_cons (a : α) (l : List α) (sz : Nat) :
    chunkList (a :: l) sz = (a :: l.take (sz - 1)) :: chunkList (l.drop (sz - 1)) sz := by
  rw [chunkList]

lemma chunkList_eq_nil_iff (l : List α) (sz : Nat) : chunkList l sz = [] ↔ l = [] := by
  cases l <;> simp [chunkList_nil, chunkList_cons]

lemma chunkList_flatten (l : List α) (sz : Nat) : (chunkList l sz).flatten = l := by
  induction l, sz using chunkList.induct with
  | case1 sz => rw [chunkList_nil]; rfl
  | case2 a l sz ih =>
    rw [chunkList_cons, List.flatten_cons, ih]
    simp [List.take_append_drop]

lemma chunkList_length (l : List α) (sz : Nat) :
    0 < sz → (chunkList l sz).length = (l.length + sz - 1) / sz := by
  induction l, sz using chunkList.induct with
  | case1 sz =>
    intro hs
    rw [chunkList_nil]
    simp only [List.length_nil]
    exact (Nat.div_eq_of_lt (by omega)).symm
  | case2 a l sz ih =>
    intro hs
    rw [chunkList_cons]
    simp only [List.length_cons, ih hs, List.length_drop]
    rcases Nat.lt_or_ge l.length sz with h | h
    · rw [Nat.div_eq_of_lt (by omega)]
      have h2 : l.length + 1 + sz - 1 = l.length + sz := by omega
      rw [h2, Nat.add_div_right _ hs, Nat.div_eq_of_lt h]
    · have h1 : l.length - (sz - 1) + sz - 1 = l.length := by omega
      have h2 : l.length + 1 + sz - 1 = l.length + sz := by omega
      rw [h1, h2, Nat.add_div_right _ hs]

lemma chunkList_full (l : List α) (sz : Nat) :
    0 < sz → ∀ i, i + 1 < (chunkList l sz).length →
      ((chunkList l sz).getD i []).length = sz := by
  induction l, sz using chunkList.induct with
  | case1 sz =>
    intro hs i hi
    rw [chunkList_nil] at hi
    simp at hi
  | case2 a l sz ih =>
    intro hs i hi
    rw [chunkList_cons] at hi ⊢
    cases i with
    | zero =>
      have hne : chunkList (l.drop (sz - 1)) sz ≠ [] := by
        intro h
        rw [h] at hi
        simp at hi
      have hd : l.drop (sz - 1) ≠ [] := by
        intro h
        apply hne
        rw [h]
        exact chunkList_nil sz
      have hlen : sz - 1 < l.length := by
        rcases Nat.lt_or_ge (sz - 1) l.length with h | h
        · exact h
        · exact absurd (List.drop_eq_nil_iff.mpr h) hd
      simp only [List.getD_cons_zero, List.length_cons, List.length_take]
      omega
    | succ i =>
      simp only [List.getD_cons_succ]
      simp only [List.length_cons] at hi
      exact ih hs i (by omega)

lemma chunkList_last (l : List α) (sz : Nat) :
    0 < sz → ∀ c, (chunkList l sz).getLast? = some c →
      c.length = if l.length % sz = 0 then sz else l.length % sz := by
  induction l, sz using chunkList.induct with
  | case1 sz =>
    intro hs c hc
    rw [chunkList_nil] at hc
    simp at hc
  | case2 a l sz ih =>
    intro hs c hc
    rw [chunkList_cons] at hc
    by_cases hd : l.drop (sz - 1) = []
    · rw [hd, chunkList_nil, List.getLast?_singleton] at hc
      have hc' : c = a :: l.take (sz - 1) := (Option.some.inj hc).symm
      subst hc'
      have hlen : l.length ≤ sz - 1 := List.drop_eq_nil_iff.mp hd
      have hlc : (a :: l.take (sz - 1)).length = l.length + 1 := by
        simp only [List.length_cons, List.length_take]
        omega
      rw [hlc]
      simp only [List.length_cons]
      rcases Nat.lt_or_ge (l.length + 1) sz with h | h
      · rw [Nat.mod_eq_of_lt h, if_neg (by omega)]
      · have hsz : l.length + 1 = sz := by omega
        rw [hsz, Nat.mod_self, if_pos rfl]
    · have hrne : chunkList (l.drop (sz - 1)) sz ≠ [] := by
        simpa [chunkList_eq_nil_iff] using hd
      have hge : sz - 1 < l.length := by
        rcases Nat.lt_or_ge (sz - 1) l.length with h | h
        · exact h
        · exact absurd (List.drop_eq_nil_iff.mpr h) hd
      cases hrest : chunkList (l.drop (sz - 1)) sz with
      | nil => exact absurd hrest hrne
      | cons r rs =>
        rw [hrest, List.getLast?_cons_cons] at hc
        have hih := ih hs c (by rw [hrest]; exact hc)
        rw [List.length_drop] at hih
        have hmod : (l.length - (sz - 1)) % sz = (l.length + 1) % sz := by
          have h1 : l.length - (sz - 1) = l.length + 1 - sz := by omega
          have h2 : l.length + 1 - sz + sz = l.length + 1 := by omega
          rw [h1]
          conv_rhs => rw [← h2]
          rw [Nat.add_mod_right]
        rw [hmod] at hih
        simp only [List.length_cons]
        exact hih

/-- C4: `chunk_up_dataframe` splits a rowset of `N` rows into exactly
`ceil(N / chunk_size)` contiguous chunks in original order; every chunk
except possibly the last has exactly `chunk_size` rows; the last chunk
has `N mod chunk_size` rows when that remainder is nonzero and
`chunk_size` rows otherwise; and concatenating the chunks in order
reproduces the original rowset. -/
theorem chunk_up_dataframe_spec {α : Type} (dfs : List α) (chunk_size : Int)
    (hsz : 0 < chunk_size) (chunks : List (List α))
    (h : chunk_up_dataframe dfs chunk_size = Except.ok chunks) :
    chunks.flatten = dfs ∧
    chunks.length = (dfs.length + chunk_size.toNat - 1) / chunk_size.toNat ∧
    (∀ i, i + 1 < chunks.length → (chunks.getD i []).length = chunk_size.toNat) ∧
    (∀ c, chunks.getLast? = some c →
      c.length = if dfs.length % chunk_size.toNat = 0 then chunk_size.toNat
        else dfs.length % chunk_size.toNat) := by
  have hchunks : chunks = chunkList dfs chunk_size.toNat := by
    unfold chunk_up_dataframe at h
    rw [if_neg (by omega)] at h
    exact (Except.ok.inj h).symm
  have hs : 0 < chunk_size.toNat := by omega
  subst hchunks
  exact ⟨chunkList_flatten dfs _, chunkList_length dfs _ hs,
    chunkList_full dfs _ hs, chunkList_last dfs _ hs⟩

/-- Witness for C4: chunking 100 rows with chunk size 30 yields exactly
ceil(100/30) = 4 chunks. -/
theorem chunk_up_dataframe_spec_witness :
    (chunkList (List.range 100) 30).length = 4 :=
  ((chunk_up_dataframe_spec (List.range 100) 30 (by decide)
    (chunkList (List.range 100) 30) rfl).2.1).trans (by decide)

end PyTsbs

namespace PyTsbs

lemma sliceStep_nil (w : Nat) : sliceStep ([] : List α) w = [] := by
  rw [sliceStep]

lemma sliceStep_cons (a : α) (l : List α) (w : Nat) :
    sliceStep (a :: l) w = a :: sliceStep (l.drop (w - 1)) w := by
  rw [sliceStep]

lemma sliceStep_getElem (l : List α) (w : Nat) :
    0 < w → ∀ j, (sliceStep l w)[j]? = l[j * w]? := by
  induction l, w using sliceStep.induct with
  | case1 w =>
    intro hw j
    rw [sliceStep_nil]
    simp
  | case2 a l w ih =>
    intro hw j
    rw [sliceStep_cons]
    cases j with
    | zero => simp
    | succ j =>
      have hidx : (j + 1) * w = (w - 1 + j * w) + 1 := by
        have hm : (j + 1) * w = j * w + w := Nat.succ_mul j w
        omega
      rw [List.getElem?_cons_succ, ih hw j, List.getElem?_drop, hidx,
        List.getElem?_cons_succ]

lemma assignRR_length (dfs : List α) (w : Nat) : (assignRR dfs w).length = w := by
  simp [assignRR]

lemma assignRR_getD (dfs : List α) (w : Nat) (k : Nat) (hk : k < w) :
    (assignRR dfs w).getD k [] = sliceStep (dfs.drop k) w := by
  unfold assignRR
  rw [List.getD_eq_getElem?_getD, List.getElem?_map, List.getElem?_range hk]
  rfl

lemma assignRR_get (dfs : List α) (w : Nat) (hw : 0 < w) (k : Nat) (hk : k < w)
    (j : Nat) : ((assignRR dfs w).getD k [])[j]? = dfs[k + j * w]? := by
  rw [assignRR_getD dfs w k hk, sliceStep_getElem _ _ hw j, List.getElem?_drop]

/-- C5: `assign_dfs_to_workers` distributes chunks round-robin: the
result has exactly one (possibly empty) list per worker index in
`[0, workers)`; worker `k`'s `j`-th chunk is the chunk at original
position `k + j * workers`, so its chunks are exactly those whose
original index is congruent to `k` modulo `workers`, in ascending
original order, and the chunk at position `i` goes to worker
`i mod workers`. -/
theorem assign_dfs_to_workers_spec {α : Type} (dfs : List α) (workers : Int)
    (hw : 0 < workers) (res : List (List α))
    (h : assign_dfs_to_workers dfs workers = Except.ok res) :
    res.length = workers.toNat ∧
    (∀ k, k < workers.toNat → ∀ j,
      (res.getD k [])[j]? = dfs[k + j * workers.toNat]?) ∧
    (∀ i, (res.getD (i % workers.toNat) [])[i / workers.toNat]? = dfs[i]?) := by
  have hwn : 0 < workers.toNat := by omega
  have hres : res = assignRR dfs workers.toNat := by
    unfold assign_dfs_to_workers at h
    rw [if_neg (by omega)] at h
    exact (Except.ok.inj h).symm
  subst hres
  refine ⟨assignRR_length dfs _, fun k hk j => assignRR_get dfs _ hwn k hk j, ?_⟩
  intro i
  rw [assignRR_get dfs _ hwn (i % workers.toNat) (Nat.mod_lt i hwn) (i / workers.toNat)]
  congr 1
  exact Nat.mod_add_div' i workers.toNat

/-- Witness for C5: with 10 chunks and 3 workers, worker 0's fourth
chunk is the chunk at original position 9. -/
theorem assign_dfs_to_workers_spec_witness :
    ((assignRR (List.range 10) 3).getD 0 [])[3]? = some 9 :=
  ((assign_dfs_to_workers_spec (List.range 10) 3 (by decide)
    (assignRR (List.range 10) 3) rfl).2.1 0 (by decide) 3).trans (by decide)

end PyTsbs

namespace PyTsbs

lemma assignRR_flatten_perm (dfs : List α) (w : Nat) :
    0 < w → (assignRR dfs w).flatten.Perm dfs := by
  induction dfs with
  | nil =>
    intro hw
    have h : assignRR ([] : List α) w = List.map (fun _ => []) (List.range w) := by
      unfold assignRR
      exact List.map_congr_left (fun k _ => by rw [List.drop_nil, sliceStep_nil])
    rw [h]
    have h2 : (List.map (fun _ => ([] : List α)) (List.range w)).flatten = [] := by
      induction List.range w with
      | nil => rfl
      | cons x xs ih => simpa using ih
    rw [h2]
  | cons a l ih =>
    intro hw
    obtain ⟨v, rfl⟩ : ∃ v, w = v + 1 := ⟨w - 1, by omega⟩
    have hstep : assignRR (a :: l) (v + 1) =
        (a :: sliceStep (l.drop v) (v + 1)) ::
          List.map (fun k => sliceStep (l.drop k) (v + 1)) (List.range v) := by
      unfold assignRR
      rw [List.range_succ_eq_map, List.map_cons, List.map_map]
      congr 1
      rw [List.drop_zero, sliceStep_cons]
      norm_num
    have hprev : assignRR l (v + 1) =
        List.map (fun k => sliceStep (l.drop k) (v + 1)) (List.range v) ++
          [sliceStep (l.drop v) (v + 1)] := by
      unfold assignRR
      rw [List.range_succ, List.map_append, List.map_singleton]
    rw [hstep, List.flatten_cons, List.cons_append]
    refine List.Perm.cons a ?_
    have h1 : (sliceStep (l.drop v) (v + 1) ++
        (List.map (fun k => sliceStep (l.drop k) (v + 1)) (List.range v)).flatten).Perm
        ((List.map (fun k => sliceStep (l.drop k) (v + 1)) (List.range v)).flatten ++
          sliceStep (l.drop v) (v + 1)) := List.perm_append_comm
    refine h1.trans ?_
    have h2 : (List.map (fun k => sliceStep (l.drop k) (v + 1)) (List.range v)).flatten ++
        sliceStep (l.drop v) (v + 1) = (assignRR l (v + 1)).flatten := by
      rw [hprev, List.flatten_append]
      simp [List.flatten_cons]
    rw [h2]
    exact ih hw

lemma flatten_map_flatten (plan : List (List (List α))) :
    (plan.map List.flatten).flatten = plan.flatten.flatten := by
  induction plan with
  | nil => rfl
  | cons x xs ih => simp [List.flatten_append, ih]

/-- Strict timestamp order on rows. -/
def tsLt (a b : Row) : Prop := a.timestamp < b.timestamp

instance : IsAntisymm Row tsLt :=
  ⟨fun _ _ h1 h2 => absurd (lt_trans h1 h2) (lt_irrefl _)⟩

lemma tsLe_trans : ∀ a b c : Row, tsLe a b = true → tsLe b c = true → tsLe a c = true := by
  intro a b c h1 h2
  simp only [tsLe, decide_eq_true_eq] at h1 h2 ⊢
  omega

lemma tsLe_total : ∀ a b : Row, (tsLe a b || tsLe b a) = true := by
  intro a b
  simp only [tsLe, Bool.or_eq_true, decide_eq_true_eq]
  omega

lemma sortByTs_sorted_lt (l : List Row) (hnd : (l.map Row.timestamp).Nodup) :
    List.Pairwise tsLt (sortByTs l) := by
  have hs : List.Pairwise (fun a b => tsLe a b = true) (sortByTs l) :=
    List.sorted_mergeSort tsLe_trans tsLe_total l
  have hperm : ((sortByTs l).map Row.timestamp).Perm (l.map Row.timestamp) :=
    (List.mergeSort_perm l tsLe).map _
  have hnd' : ((sortByTs l).map Row.timestamp).Nodup := hperm.nodup_iff.mpr hnd
  have hpne : List.Pairwise (fun a b : Row => a.timestamp ≠ b.timestamp) (sortByTs l) :=
    List.pairwise_map.mp hnd'
  refine (hs.and hpne).imp ?_
  rintro a b ⟨h1, h2⟩
  simp only [tsLe, decide_eq_true_eq] at h1
  exact lt_of_le_of_ne h1 h2

lemma sortByTs_eq_of_perm (l1 l2 : List Row) (hperm : l1.Perm l2)
    (hnd : (l2.map Row.timestamp).Nodup) : sortByTs l1 = sortByTs l2 := by
  have hnd1 : (l1.map Row.timestamp).Nodup := ((hperm.map _).nodup_iff).mpr hnd
  have hp : (sortByTs l1).Perm (sortByTs l2) :=
    ((List.mergeSort_perm l1 tsLe).trans hperm).trans (List.mergeSort_perm l2 tsLe).symm
  exact List.eq_of_perm_of_sorted hp (sortByTs_sorted_lt l1 hnd1) (sortByTs_sorted_lt l2 hnd)

/-- C2: for every RowSet (rows with pairwise-distinct timestamps, per
the data model), every positive chunk size and every positive worker
count, chunking, assigning the chunks round-robin to workers, and then
validating the worker plan succeeds: pooling all chunks across all
workers and sorting the pooled rows by timestamp reconstitutes the
original RowSet. -/
theorem worker_roundtrip (df : List Row) (chunk_size workers : Int)
    (hnd : (df.map Row.timestamp).Nodup) (hcs : 0 < chunk_size) (hw : 0 < workers)
    (chunks : List (List Row)) (plan : List (List (List Row)))
    (hc : chunk_up_dataframe df chunk_size = Except.ok chunks)
    (ha : assign_dfs_to_workers chunks workers = Except.ok plan) :
    sanity_check_split2 df plan = Except.ok () := by
  have hchunks : chunks = chunkList df chunk_size.toNat := by
    unfold chunk_up_dataframe at hc
    rw [if_neg (by omega)] at hc
    exact (Except.ok.inj hc).symm
  have hplan : plan = assignRR chunks workers.toNat := by
    unfold assign_dfs_to_workers at ha
    rw [if_neg (by omega)] at ha
    exact (Except.ok.inj ha).symm
  subst hplan
  subst hchunks
  have hpool : ((assignRR (chunkList df chunk_size.toNat) workers.toNat).map
      List.flatten).flatten.Perm df := by
    rw [flatten_map_flatten]
    have h1 := (assignRR_flatten_perm (chunkList df chunk_size.toNat)
      workers.toNat (by omega)).flatten
    rw [chunkList_flatten] at h1
    exact h1
  have heq := sortByTs_eq_of_perm _ df hpool hnd
  unfold sanity_check_split2
  rw [if_pos heq]

/-- Witness for C2: a 3-row generated RowSet, chunk size 2, 2 workers. -/
theorem worker_roundtrip_witness :
    sanity_check_split2 (genRows 0 3 2)
      (assignRR (chunkList (genRows 0 3 2) 2) 2) = Except.ok () :=
  worker_roundtrip (genRows 0 3 2) 2 2 (by decide) (by decide) (by decide)
    (chunkList (genRows 0 3 2) 2) (assignRR (chunkList (genRows 0 3 2) 2) 2)
    rfl rfl

end PyTsbs

namespace PyTsbs

lemma digitChar_inj {a b : Nat} (ha : a < 10) (hb : b < 10)
    (h : Nat.digitChar a = Nat.digitChar b) : a = b := by
  have hd : ∀ x : Fin 10, ∀ y : Fin 10,
      Nat.digitChar x.val = Nat.digitChar y.val → x = y := by decide
  exact congrArg Fin.val (hd ⟨a, ha⟩ ⟨b, hb⟩ h)

lemma map_digitChar_inj : ∀ (l1 l2 : List Nat), (∀ d ∈ l1, d < 10) →
    (∀ d ∈ l2, d < 10) → l1.map Nat.digitChar = l2.map Nat.digitChar → l1 = l2 := by
  intro l1
  induction l1 with
  | nil =>
    intro l2 _ _ h
    cases l2 with
    | nil => rfl
    | cons b t => simp at h
  | cons a t ih =>
    intro l2 h1 h2 h
    cases l2 with
    | nil => simp at h
    | cons b t2 =>
      simp only [List.map_cons, List.cons.injEq] at h
      obtain ⟨hh, ht⟩ := h
      have ha : a < 10 := h1 a (List.mem_cons_self a t)
      have hb : b < 10 := h2 b (List.mem_cons_self b t2)
      rw [digitChar_inj ha hb hh,
        ih t2 (fun d hd => h1 d (List.mem_cons_of_mem _ hd))
          (fun d hd => h2 d (List.mem_cons_of_mem _ hd)) ht]

lemma digits_map_eq_zero_char (m : Nat) (hm : m ≠ 0)
    (h : ((Nat.digits 10 m).map Nat.digitChar).reverse = ['0']) : False := by
  have h2 : (Nat.digits 10 m).map Nat.digitChar = ['0'] := by
    have := congrArg List.reverse h
    rwa [List.reverse_reverse] at this
  cases hdig : Nat.digits 10 m with
  | nil => rw [hdig] at h2; simp at h2
  | cons d t =>
    rw [hdig] at h2
    cases t with
    | cons d2 t2 => simp at h2
    | nil =>
      simp only [List.map_cons, List.map_nil, List.cons.injEq, and_true] at h2
      have hd10 : d < 10 :=
        Nat.digits_lt_base (by norm_num) (hdig ▸ List.mem_cons_self d [])
      have hd0 : d = 0 := digitChar_inj hd10 (by norm_num) h2
      have hgl : ∀ (l : List Nat) (hl : l ≠ []), l = [d] → l.getLast hl = d := by
        intro l hl he
        subst he
        rfl
      have hlast := Nat.getLast_digit_ne_zero 10 hm
      exact hlast ((hgl (Nat.digits 10 m) _ hdig).trans hd0)

lemma natStr_inj : Function.Injective natStr := by
  intro n m h
  unfold natStr at h
  by_cases hn : n = 0 <;> by_cases hm : m = 0
  · rw [hn, hm]
  · rw [if_pos hn, if_neg hm] at h
    exact absurd (congrArg String.data h).symm
      (fun hc => digits_map_eq_zero_char m hm hc)
  · rw [if_neg hn, if_pos hm] at h
    exact absurd (congrArg String.data h)
      (fun hc => digits_map_eq_zero_char n hn hc)
  · rw [if_neg hn, if_neg hm] at h
    have hdata : ((Nat.digits 10 n).map Nat.digitChar).reverse =
        ((Nat.digits 10 m).map Nat.digitChar).reverse := congrArg String.data h
    have hmap := List.reverse_injective hdata
    have hdig := map_digitChar_inj _ _
      (fun d hd => Nat.digits_lt_base (by norm_num) hd)
      (fun d hd => Nat.digits_lt_base (by norm_num) hd) hmap
    exact Nat.digits.injective 10 hdig

lemma hostName_inj : Function.Injective hostName := by
  intro a b h
  unfold hostName at h
  have hdata := congrArg String.data h
  rw [String.data_append, String.data_append] at hdata
  exact natStr_inj (String.ext (List.append_cancel_left hdata))

lemma genRows_hostnames (seed rc sc : Nat) :
    (genRows seed rc sc).map Row.hostname =
      (List.range rc).map (fun i => hostName (i % sc)) := by
  unfold genRows
  rw [List.map_map]
  rfl

lemma toFinset_map_list {β γ : Type} [DecidableEq β] [DecidableEq γ]
    (f : β → γ) (l : List β) : (l.map f).toFinset = l.toFinset.image f := by
  induction l with
  | nil => simp
  | cons a t ih => simp [ih]

lemma toFinset_list_range (n : Nat) : (List.range n).toFinset = Finset.range n := by
  ext k
  simp [List.mem_toFinset, List.mem_range, Finset.mem_range]

lemma image_mod_range (rc sc : Nat) (hsc : 0 < sc) (hle : sc ≤ rc) :
    (Finset.range rc).image (fun i => i % sc) = Finset.range sc := by
  apply Finset.ext
  intro k
  simp only [Finset.mem_image, Finset.mem_range]
  constructor
  · rintro ⟨i, _, rfl⟩
    exact Nat.mod_lt i hsc
  · intro hk
    exact ⟨k, lt_of_lt_of_le hk hle, Nat.mod_eq_of_lt hk⟩

lemma hostnames_dedup_card (seed rc sc : Nat) (hsc : 0 < sc) (hle : sc ≤ rc) :
    ((genRows seed rc sc).map Row.hostname).dedup.length = sc := by
  rw [genRows_hostnames, ← List.card_toFinset, toFinset_map_list, toFinset_list_range]
  have hcomp : (fun i => hostName (i % sc)) = hostName ∘ (fun i => i % sc) := rfl
  rw [hcomp, ← Finset.image_image, image_mod_range rc sc hsc hle,
    Finset.card_image_of_injective _ hostName_inj, Finset.card_range]

/-- C7: for every valid `(seed, row_count, scale)`, every hostname of
the generated RowSet is of the form `host_<i>` with `i < scale`; when
`scale <= row_count` the hostname field takes exactly `scale` distinct
values, each appearing in at least one row; when `scale > row_count`,
at most `row_count` distinct values appear. -/
theorem gen_dataframe_hostnames (seed : Nat) (row_count scale : Int)
    (h1 : 0 < row_count) (h2 : 0 < scale) (rows : List Row)
    (hg : gen_dataframe seed row_count scale = Except.ok rows) :
    (∀ h ∈ rows.map Row.hostname, ∃ i < scale.toNat, h = hostName i) ∧
    (scale ≤ row_count →
      (rows.map Row.hostname).dedup.length = scale.toNat ∧
      ∀ i < scale.toNat, hostName i ∈ rows.map Row.hostname) ∧
    (row_count < scale →
      (rows.map Row.hostname).dedup.length ≤ row_count.toNat) := by
  rw [gen_dataframe_ok seed row_count scale h1 h2] at hg
  have hrows : rows = genRows seed row_count.toNat scale.toNat :=
    (Except.ok.inj hg).symm
  subst hrows
  have hsc : 0 < scale.toNat := by omega
  refine ⟨?_, fun hle => ⟨?_, ?_⟩, fun hlt => ?_⟩
  · intro h hm
    rw [genRows_hostnames] at hm
    obtain ⟨i, _, rfl⟩ := List.mem_map.mp hm
    exact ⟨i % scale.toNat, Nat.mod_lt i hsc, rfl⟩
  · exact hostnames_dedup_card _ _ _ hsc (by omega)
  · intro i hi
    rw [genRows_hostnames]
    refine List.mem_map.mpr ⟨i, List.mem_range.mpr (by omega), ?_⟩
    rw [Nat.mod_eq_of_lt hi]
  · calc ((genRows seed row_count.toNat scale.toNat).map Row.hostname).dedup.length
        ≤ ((genRows seed row_count.toNat scale.toNat).map Row.hostname).length :=
          (List.dedup_sublist _).length_le
      _ = row_count.toNat := by simp [genRows]

/-- Witness for C7: with 3 rows and scale 2, exactly 2 distinct
hostnames appear. -/
theorem gen_dataframe_hostnames_witness :
    ((genRows 0 3 2).map Row.hostname).dedup.length = 2 :=
  ((gen_dataframe_hostnames 0 3 2 (by decide) (by decide) (genRows 0 3 2)
    (gen_dataframe_ok 0 3 2 (by decide) (by decide))).2.1 (by decide)).1

end PyTsbs

namespace PyTsbs

lemma blockLoop_spec (counts : Nat → Int) (times : Nat → ℚ) (target : Int)
    (tmo t0 : ℚ) : ∀ fuel i,
    (blockLoop counts times target tmo t0 i fuel = PollOutcome.ok →
      ∃ j, i ≤ j ∧ counts j = target ∧ ∀ k, i ≤ k → k < j → counts k < target) ∧
    (∀ rc tgt, blockLoop counts times target tmo t0 i fuel = PollOutcome.overTarget rc tgt →
      tgt = target ∧ rc > target ∧
        ∃ j, i ≤ j ∧ counts j = rc ∧ ∀ k, i ≤ k → k < j → counts k < target) ∧
    (∀ tgt, blockLoop counts times target tmo t0 i fuel = PollOutcome.timedOut tgt →
      tgt = target ∧ ∃ j, i ≤ j ∧ counts j < target ∧ times (j + 1) - t0 > tmo ∧
        ∀ k, i ≤ k → k < j → counts k < target) := by
  intro fuel
  induction fuel with
  | zero =>
    intro i
    refine ⟨?_, ?_, ?_⟩
    · intro h
      simp [blockLoop] at h
    · intro rc tgt h
      simp [blockLoop] at h
    · intro tgt h
      simp [blockLoop] at h
  | succ f ih =>
    intro i
    by_cases h1 : counts i = target
    · have hred : blockLoop counts times target tmo t0 i (f + 1) = PollOutcome.ok := by
        rw [blockLoop]
        simp only [if_pos h1]
      refine ⟨?_, ?_, ?_⟩
      · intro _
        exact ⟨i, le_refl i, h1, fun k hk1 hk2 => absurd hk1 (by omega)⟩
      · intro rc tgt h
        rw [hred] at h
        simp at h
      · intro tgt h
        rw [hred] at h
        simp at h
    · by_cases h2 : counts i > target
      · have hred : blockLoop counts times target tmo t0 i (f + 1) =
            PollOutcome.overTarget (counts i) target := by
          rw [blockLoop]
          simp only [if_neg h1, if_pos h2]
        refine ⟨?_, ?_, ?_⟩
        · intro h
          rw [hred] at h
          simp at h
        · intro rc tgt h
          rw [hred] at h
          have hrc : counts i = rc := by
            cases h
            rfl
          have htgt : tgt = target := by
            cases h
            rfl
          refine ⟨htgt, by omega, i, le_refl i, hrc,
            fun k hk1 hk2 => absurd hk1 (by omega)⟩
        · intro tgt h
          rw [hred] at h
          simp at h
      · by_cases h3 : times (i + 1) - t0 > tmo
        · have hred : blockLoop counts times target tmo t0 i (f + 1) =
              PollOutcome.timedOut target := by
            rw [blockLoop]
            simp only [if_neg h1, if_neg h2, if_pos h3]
          refine ⟨?_, ?_, ?_⟩
          · intro h
            rw [hred] at h
            simp at h
          · intro rc tgt h
            rw [hred] at h
            simp at h
          · intro tgt h
            rw [hred] at h
            have htgt : tgt = target := by
              cases h
              rfl
            exact ⟨htgt, i, le_refl i, by omega, h3,
              fun k hk1 hk2 => absurd hk1 (by omega)⟩
        · have hred : blockLoop counts times target tmo t0 i (f + 1) =
              blockLoop counts times target tmo t0 (i + 1) f := by
            rw [blockLoop]
            simp only [if_neg h1, if_neg h2, if_neg h3]
          have hbelow : counts i < target := by omega
          refine ⟨?_, ?_, ?_⟩
          · intro h
            rw [hred] at h
            obtain ⟨j, hij, hj, hpre⟩ := (ih (i + 1)).1 h
            refine ⟨j, by omega, hj, ?_⟩
            intro k hk1 hk2
            rcases Nat.eq_or_lt_of_le hk1 with rfl | hk
            · exact hbelow
            · exact hpre k (by omega) hk2
          · intro rc tgt h
            rw [hred] at h
            obtain ⟨htgt, hrc, j, hij, hj, hpre⟩ := (ih (i + 1)).2.1 rc tgt h
            refine ⟨htgt, hrc, j, by omega, hj, ?_⟩
            intro k hk1 hk2
            rcases Nat.eq_or_lt_of_le hk1 with rfl | hk
            · exact hbelow
            · exact hpre k (by omega) hk2
          · intro tgt h
            rw [hred] at h
            obtain ⟨htgt, j, hij, hj, htime, hpre⟩ := (ih (i + 1)).2.2 tgt h
            refine ⟨htgt, j, by omega, hj, htime, ?_⟩
            intro k hk1 hk2
            rcases Nat.eq_or_lt_of_le hk1 with rfl | hk
            · exact hbelow
            · exact hpre k (by omega) hk2

/-- C9: `block_until_rowcount` returns normally only when a polled row
count equals the target exactly (all earlier polls strictly below it);
it raises the over-target error exactly when a poll observes a count
strictly greater than the target (reporting that count), and raises the
distinct timeout error only when a below-target poll finds the deadline
passed — each error terminates the call. -/
theorem block_until_rowcount_spec (counts : Nat → Int) (times : Nat → ℚ)
    (target : Int) (tmo : ℚ) (fuel : Nat) :
    (block_until_rowcount counts times target tmo fuel = PollOutcome.ok →
      ∃ j, counts j = target ∧ ∀ k, k < j → counts k < target) ∧
    (∀ rc tgt, block_until_rowcount counts times target tmo fuel =
        PollOutcome.overTarget rc tgt →
      tgt = target ∧ rc > target ∧
        ∃ j, counts j = rc ∧ ∀ k, k < j → counts k < target) ∧
    (∀ tgt, block_until_rowcount counts times target tmo fuel =
        PollOutcome.timedOut tgt →
      tgt = target ∧ ∃ j, counts j < target ∧ times (j + 1) - times 0 > tmo ∧
        ∀ k, k < j → counts k < target) := by
  have hs := blockLoop_spec counts times target tmo (times 0) fuel 0
  refine ⟨?_, ?_, ?_⟩
  · intro h
    obtain ⟨j, _, hj, hpre⟩ := hs.1 h
    exact ⟨j, hj, fun k hk => hpre k (Nat.zero_le k) hk⟩
  · intro rc tgt h
    obtain ⟨htgt, hrc, j, _, hj, hpre⟩ := hs.2.1 rc tgt h
    exact ⟨htgt, hrc, j, hj, fun k hk => hpre k (Nat.zero_le k) hk⟩
  · intro tgt h
    obtain ⟨htgt, j, _, hj, htime, hpre⟩ := hs.2.2 tgt h
    exact ⟨htgt, j, hj, htime, fun k hk => hpre k (Nat.zero_le k) hk⟩

/-- Witness for C9: a first poll of 7 against target 5 yields the
over-target error reporting the exceeding count. -/
theorem block_until_rowcount_spec_witness :
    ∃ j, (fun _ : Nat => (7 : Int)) j = 7 ∧
      ∀ k, k < j → (fun _ : Nat => (7 : Int)) k < 5 :=
  (((block_until_rowcount_spec (fun _ => (7 : Int)) (fun _ => (0 : ℚ)) 5 30 1).2.1
    7 5 rfl)).2.2

end PyTsbs
